import Mathlib

/-!
Verification of the task-store and theme-resolver logic of omado
(src/main.rs). Strings are modelled as lists of characters (`Str`); the
backing todo file and the theme files appear as explicit values, with an
`fs` function standing for the file system. All definitions are translated
from the Rust source; definitions whose names start with `spec` restate
the specification's wording for comparison.
-/

set_option linter.unusedVariables false

namespace Omado

abbrev Str : Type := List Char

def chars (s : String) : Str := s.toList

/-- The Unicode White_Space code points, as tested by Rust's
`char::is_whitespace` (used by `str::trim`). -/
def rustIsWhitespace (c : Char) : Bool :=
  (0x09 ≤ c.toNat && c.toNat ≤ 0x0d) || c.toNat = 0x20 || c.toNat = 0x85 ||
  c.toNat = 0xa0 || c.toNat = 0x1680 ||
  (0x2000 ≤ c.toNat && c.toNat ≤ 0x200a) ||
  c.toNat = 0x2028 || c.toNat = 0x2029 || c.toNat = 0x202f ||
  c.toNat = 0x205f || c.toNat = 0x3000

/-- Leading-whitespace removal (the left half of Rust `str::trim`). -/
def ltrim (s : Str) : Str := s.dropWhile rustIsWhitespace

/-- Trailing-whitespace removal (the right half of Rust `str::trim`). -/
def rtrim (s : Str) : Str := (s.reverse.dropWhile rustIsWhitespace).reverse

/-- Rust `str::trim`: removes leading and trailing whitespace. -/
def trim (s : Str) : Str := ltrim (rtrim s)

/-- Split a character list at every occurrence of `c`; always returns at
least one (possibly empty) part. -/
def splitOnChar (c : Char) : Str → List Str
  | [] => [[]]
  | x :: xs =>
    if x = c then [] :: splitOnChar c xs
    else
      match splitOnChar c xs with
      | [] => [[x]]
      | h :: t => (x :: h) :: t

/-- Drop a final empty part, mirroring how Rust `str::lines` yields no line
for a trailing newline (and no line at all for the empty string). -/
def dropLastEmpty (l : List Str) : List Str :=
  match l with
  | [] => []
  | [a] => if a = [] then [] else [a]
  | a :: b :: rest => a :: dropLastEmpty (b :: rest)

/-- Remove one trailing carriage return, as Rust `str::lines` does per line. -/
def stripCR (s : Str) : Str :=
  match s.reverse with
  | [] => s
  | c :: rest => if c = '\r' then rest.reverse else s

/-- Rust `str::lines`: split on newlines, never yielding a final empty line,
and strip one trailing carriage return from each line. -/
def rustLines (s : Str) : List Str :=
  (dropLastEmpty (splitOnChar '\n' s)).map stripCR

/-- Index of the first colon, mirroring Rust `text.find(':')`. (Rust returns
a byte index; since the code only slices at this position, the character
index is an equivalent model.) -/
def findColon : Str → Option Nat
  | [] => none
  | c :: cs => if c = ':' then some 0 else (findColon cs).map (· + 1)

/-- `TodoApp::parse_todo_text`: split raw input into (text, project) on the
first colon, requiring both trimmed sides to be non-empty. -/
def parse_todo_text (text : Str) : Str × Option Str :=
  match findColon text with
  | some colonPos =>
    let projectPart := trim (text.take colonPos)
    let taskPart := trim (text.drop (colonPos + 1))
    if projectPart ≠ [] ∧ taskPart ≠ [] then (taskPart, some projectPart)
    else (text, none)
  | none => (text, none)

structure Todo where
  text : Str
  done : Bool
  project : Option Str
deriving DecidableEq

/-- The 4-character pending marker `"[ ] "` checked by `load_todos`. -/
def markerPending : Str := ['[', ' ', ']', ' ']

/-- The 4-character done marker `"[x] "` checked by `load_todos`. -/
def markerDone : Str := ['[', 'x', ']', ' ']

/-- The 3-character pending box written by `save_todos`. -/
def boxPending : Str := ['[', ' ', ']']

/-- The 3-character done box written by `save_todos`. -/
def boxDone : Str := ['[', 'x', ']']

/-- The display form `<project: >text` used both by `save_todos` and when
pre-filling the edit buffer. -/
def displayText (t : Todo) : Str :=
  match t.project with
  | some p => p ++ [':', ' '] ++ t.text
  | none => t.text

/-- One line of `save_todos` output (without its terminating newline):
`format!("{} {}", prefix, display_text)`. -/
def serializeLine (t : Todo) : Str :=
  (if t.done then boxDone else boxPending) ++ ' ' :: displayText t

/-- `TodoApp::save_todos`: the full file content, one `<marker> <text>\n`
line per task, in order. -/
def save_todos (todos : List Todo) : Str :=
  (todos.map (fun t => serializeLine t ++ ['\n'])).flatten

/-- Parsing of a single line inside `TodoApp::load_todos`: the line is
trimmed, then recognized iff it starts with `"[ ] "` or `"[x] "`. -/
def parseLine (line : Str) : Option Todo :=
  let l := trim line
  if List.isPrefixOf markerPending l then
    let td := parse_todo_text (l.drop 4)
    some { text := td.1, done := false, project := td.2 }
  else if List.isPrefixOf markerDone l then
    let td := parse_todo_text (l.drop 4)
    some { text := td.1, done := true, project := td.2 }
  else none

/-- `TodoApp::load_todos`: on a successful read the collection is rebuilt
from the recognized lines; on a failed read (`content = none`) the previous
collection (`prev`, empty at startup) is left untouched. -/
def load_todos (content : Option Str) (prev : List Todo) : List Todo :=
  match content with
  | none => prev
  | some s => (rustLines s).filterMap parseLine

inductive Filter where
  | All
  | Active
  | Done
deriving DecidableEq

/-- `Filter::next`: the fixed cycle All → Active → Done → All. -/
def Filter.next : Filter → Filter
  | Filter.All => Filter.Active
  | Filter.Active => Filter.Done
  | Filter.Done => Filter.All

inductive ProjectFilter where
  | All
  | NoProject
  | Project (name : Str)
deriving DecidableEq

/-- ASCII lowercasing, modelling `str::to_lowercase` (exact on the ASCII
strings involved in the claims). -/
def lowerStr (s : Str) : Str := s.map Char.toLower

/-- Rust `str::contains(&str)`: substring test. -/
def containsSub (s pat : Str) : Bool :=
  s.tails.any (fun suf => List.isPrefixOf pat suf)

/-- The status-filter conjunct of `filtered_todos`. -/
def matchesFilter (f : Filter) (t : Todo) : Bool :=
  match f with
  | Filter.All => true
  | Filter.Active => !t.done
  | Filter.Done => t.done

/-- The project-filter conjunct of `filtered_todos`. -/
def matchesProject (pf : ProjectFilter) (t : Todo) : Bool :=
  match pf with
  | ProjectFilter.All => true
  | ProjectFilter.NoProject => t.project.isNone
  | ProjectFilter.Project p => t.project == some p

/-- The search conjunct of `filtered_todos`: case-insensitive substring
match against the task text and the project name. -/
def matchesSearch (search : Str) (t : Todo) : Bool :=
  if search.isEmpty then true
  else
    let searchLower := lowerStr search
    containsSub (lowerStr t.text) searchLower ||
      (match t.project with
       | none => false
       | some p => containsSub (lowerStr p) searchLower)

/-- `iter().enumerate()`: pair each element with its index, starting at `n`. -/
def enumFromIdx {α : Type} (n : Nat) : List α → List (Nat × α)
  | [] => []
  | x :: xs => (n, x) :: enumFromIdx (n + 1) xs

/-- The task-store slice of the `TodoApp` struct. `storage` models the
content of the backing todo file as written by `save_todos`;
`theme_font_size` is the one theme field the key handler reads. `f32` font
sizes are modelled by `ℚ` (exact on the values involved). -/
structure AppState where
  todos : List Todo
  selected : Nat
  filter : Filter
  project_filter : ProjectFilter
  search : Str
  editing : Option Nat
  edit_text : Str
  theme_font_size : Option ℚ
  storage : Str
  delete_mode : Bool
  show_project_palette : Bool
  project_palette_search : Str
  project_palette_selected : Nat
  show_search : Bool
  user_font_size : Option ℚ
deriving DecidableEq

/-- `TodoApp::filtered_todos`: the ordered (original-index, task) pairs
satisfying all three filters. -/
def filtered_todos (s : AppState) : List (Nat × Todo) :=
  (enumFromIdx 0 s.todos).filter
    (fun it =>
      matchesFilter s.filter it.2 && matchesProject s.project_filter it.2 &&
        matchesSearch s.search it.2)

/-- Total lexicographic order on strings by code point; UTF-8 byte order
(used by Rust's `sort`) coincides with code-point order. -/
def strLe : Str → Str → Bool
  | [], _ => true
  | _ :: _, [] => false
  | a :: as, b :: bs => if a < b then true else if a = b then strLe as bs else false

def insertSorted (x : Str) : List Str → List Str
  | [] => [x]
  | y :: ys => if strLe x y then x :: y :: ys else y :: insertSorted x ys

def sortStrs (l : List Str) : List Str := l.foldr insertSorted []

/-- `TodoApp::get_all_projects`: the distinct project names, sorted
ascending. (The source collects into a `HashSet` and sorts; the sorted
sequence of the distinct names is order-independent.) -/
def get_all_projects (todos : List Todo) : List Str :=
  sortStrs ((todos.filterMap (fun t => t.project)).dedup)

/-- In-place update of the element at an index (`self.todos[idx].f = v`);
out-of-range indices leave the list unchanged (the source only uses
in-range indices). -/
def modifyIdx {α : Type} (f : α → α) : Nat → List α → List α
  | _, [] => []
  | 0, x :: xs => f x :: xs
  | n + 1, x :: xs => x :: modifyIdx f n xs

inductive KeyAction where
  | SaveEdit
  | CancelEdit
  | MoveDown
  | MoveUp
  | GoToBottom
  | GoToTop
  | EditSelected
  | AddNew
  | ToggleSelected
  | DeleteKey
  | CycleFilter
  | ClearSearch
  | ClearDelete
  | OpenProjectPalette
  | ToggleSearch
  | CycleProject
  | ClearAllFilters
  | IncreaseFontSize
  | DecreaseFontSize
  | ResetFontSize
deriving DecidableEq

/-- `TodoApp::handle_key_action`. Every `save_todos()` call in the source
becomes a write of the serialized collection to `storage`. -/
def handle_key_action (s : AppState) (action : KeyAction) : AppState :=
  match action with
  | KeyAction.SaveEdit =>
    match s.editing with
    | none => s
    | some idx =>
      let s1 :=
        if trim s.edit_text = [] then s
        else
          let td := parse_todo_text (trim s.edit_text)
          let todos :=
            if idx < s.todos.length then
              modifyIdx (fun t => { t with text := td.1, project := td.2 }) idx s.todos
            else
              s.todos ++ [{ text := td.1, done := false, project := td.2 }]
          { s with todos := todos, storage := save_todos todos }
      { s1 with editing := none, edit_text := [] }
  | KeyAction.CancelEdit => { s with editing := none, edit_text := [] }
  | KeyAction.MoveDown =>
    let filtered := filtered_todos s
    if filtered.isEmpty then s
    else { s with selected := min (s.selected + 1) (filtered.length - 1) }
  | KeyAction.MoveUp =>
    if s.selected > 0 then { s with selected := s.selected - 1 } else s
  | KeyAction.GoToBottom =>
    let filtered := filtered_todos s
    if filtered.isEmpty then s
    else { s with selected := filtered.length - 1 }
  | KeyAction.GoToTop => { s with selected := 0 }
  | KeyAction.EditSelected =>
    match (filtered_todos s).get? s.selected with
    | some (real_idx, todo) =>
      { s with editing := some real_idx, edit_text := displayText todo }
    | none => s
  | KeyAction.AddNew =>
    { s with
        editing := some s.todos.length,
        edit_text :=
          match s.project_filter with
          | ProjectFilter.Project p => p ++ [':', ' ']
          | _ => [] }
  | KeyAction.ToggleSelected =>
    match (filtered_todos s).get? s.selected with
    | some (real_idx, _) =>
      let todos := modifyIdx (fun t => { t with done := !t.done }) real_idx s.todos
      { s with todos := todos, storage := save_todos todos }
    | none => s
  | KeyAction.DeleteKey =>
    if s.delete_mode then
      let filtered := filtered_todos s
      match filtered.get? s.selected with
      | some (real_idx, _) =>
        let todos := s.todos.eraseIdx real_idx
        let selected :=
          if s.selected ≥ filtered.length - 1 ∧ s.selected > 0 then s.selected - 1
          else s.selected
        { s with todos := todos, selected := selected,
                 storage := save_todos todos, delete_mode := false }
      | none => { s with delete_mode := false }
    else { s with delete_mode := true }
  | KeyAction.CycleFilter => { s with filter := s.filter.next, selected := 0 }
  | KeyAction.ClearSearch =>
    { s with search := [], show_search := false, selected := 0 }
  | KeyAction.ClearDelete => { s with delete_mode := false }
  | KeyAction.OpenProjectPalette =>
    { s with show_project_palette := true, project_palette_search := [],
             project_palette_selected := 0 }
  | KeyAction.ToggleSearch =>
    let sh := !s.show_search
    if sh then { s with show_search := sh }
    else { s with show_search := sh, search := [], selected := 0 }
  | KeyAction.CycleProject =>
    let projects := get_all_projects s.todos
    let pf :=
      match s.project_filter with
      | ProjectFilter.All => ProjectFilter.NoProject
      | ProjectFilter.NoProject =>
        match projects.head? with
        | some first => ProjectFilter.Project first
        | none => ProjectFilter.All
      | ProjectFilter.Project current =>
        match projects.findIdx? (fun p => p == current) with
        | some currentIdx =>
          if currentIdx + 1 < projects.length then
            match projects.get? (currentIdx + 1) with
            | some nxt => ProjectFilter.Project nxt
            | none => ProjectFilter.All
          else ProjectFilter.All
        | none => ProjectFilter.All
    { s with project_filter := pf, selected := 0 }
  | KeyAction.ClearAllFilters =>
    { s with filter := Filter.All, project_filter := ProjectFilter.All,
             search := [], show_search := false, selected := 0 }
  | KeyAction.IncreaseFontSize =>
    let current : ℚ :=
      match s.user_font_size, s.theme_font_size with
      | some v, _ => v
      | none, some v => v
      | none, none => 14
    { s with user_font_size := some (min (current + 1) 24) }
  | KeyAction.DecreaseFontSize =>
    let current : ℚ :=
      match s.user_font_size, s.theme_font_size with
      | some v, _ => v
      | none, some v => v
      | none, none => 14
    { s with user_font_size := some (max (current - 1) 8) }
  | KeyAction.ResetFontSize => { s with user_font_size := none }

/-- The search text box of the GUI writes keystrokes straight into
`self.search` (an `egui::TextEdit` bound to the field); no other state is
touched. -/
def set_search (s : AppState) (q : Str) : AppState := { s with search := q }

/-- The `add` subcommand of `handle_cli_command`: parse the argument, load
the stored todos with the same line parser, append, and re-serialize.
Returns the new collection and the file content written back. -/
def cli_add (stored : Option Str) (task_text : Str) : List Todo × Str :=
  let td := parse_todo_text task_text
  let todo : Todo := { text := td.1, done := false, project := td.2 }
  let todos := load_todos stored [] ++ [todo]
  (todos, save_todos todos)

/-- The selection invariant the specification states: the selection index is
within `[0, filtered_len - 1]`, or `0` when the filtered view is empty. -/
def selectionOk (s : AppState) : Prop :=
  s.selected < (filtered_todos s).length ∨
    (filtered_todos s = [] ∧ s.selected = 0)

/-- Sufficient conditions under which one task survives a save/load round
trip unchanged (used for the amended form of the round-trip claim). -/
def roundTripSafe (t : Todo) : Bool :=
  (!t.text.isEmpty) && (trim t.text == t.text) && (!t.text.contains '\n') &&
    (match t.project with
     | none => (parse_todo_text t.text).2.isNone
     | some p =>
       (!p.isEmpty) && (trim p == p) && (!p.contains ':') && (!p.contains '\n'))

/-- Specification wording of the status filter (for the refinement claim
about `filtered_todos`). -/
def specStatusMatches (f : Filter) (t : Todo) : Prop :=
  match f with
  | Filter.All => True
  | Filter.Active => t.done = false
  | Filter.Done => t.done = true

/-- Specification wording of the project filter. -/
def specProjectMatches (pf : ProjectFilter) (t : Todo) : Prop :=
  match pf with
  | ProjectFilter.All => True
  | ProjectFilter.NoProject => t.project = none
  | ProjectFilter.Project p => t.project = some p

/-- Specification wording of the search filter: empty search matches all;
otherwise a case-insensitive substring match against task text or project
name. -/
def specSearchMatches (search : Str) (t : Todo) : Prop :=
  search = [] ∨ containsSub (lowerStr t.text) (lowerStr search) = true ∨
    (∃ p, t.project = some p ∧ containsSub (lowerStr p) (lowerStr search) = true)

structure Color where
  r : Nat
  g : Nat
  b : Nat
deriving DecidableEq

/-- The `Theme` struct. -/
structure Theme where
  background : Color
  foreground : Color
  accent : Color
  border : Color
  done_color : Color
  red : Option Color
  green : Option Color
  yellow : Option Color
  blue : Option Color
  magenta : Option Color
  cyan : Option Color
  white : Option Color
  font_family : Option Str
  font_size : Option ℚ
deriving DecidableEq

/-- `Theme::default`: the built-in palette. -/
def Theme.default : Theme :=
  { background := ⟨26, 27, 38⟩
    foreground := ⟨205, 214, 244⟩
    accent := ⟨116, 199, 236⟩
    border := ⟨88, 91, 112⟩
    done_color := ⟨166, 173, 200⟩
    red := some ⟨243, 139, 168⟩
    green := some ⟨166, 227, 161⟩
    yellow := some ⟨249, 226, 175⟩
    blue := some ⟨137, 180, 250⟩
    magenta := some ⟨203, 166, 247⟩
    cyan := some ⟨148, 226, 213⟩
    white := some ⟨205, 214, 244⟩
    font_family := none
    font_size := none }

/-- The freshly constructed `TodoApp` (`TodoApp::new` before `load_todos`):
all filters at their defaults, nothing selected, empty search and buffers. -/
def baseState : AppState :=
  { todos := []
    selected := 0
    filter := Filter.All
    project_filter := ProjectFilter.All
    search := []
    editing := none
    edit_text := []
    theme_font_size := none
    storage := []
    delete_mode := false
    show_project_palette := false
    project_palette_search := []
    project_palette_selected := 0
    show_search := false
    user_font_size := none }

/-- Value of one hexadecimal digit, as accepted by `u8::from_str_radix`
with radix 16. -/
def hexVal (c : Char) : Option Nat :=
  if '0' ≤ c ∧ c ≤ '9' then some (c.toNat - '0'.toNat)
  else if 'a' ≤ c ∧ c ≤ 'f' then some (c.toNat - 'a'.toNat + 10)
  else if 'A' ≤ c ∧ c ≤ 'F' then some (c.toNat - 'A'.toNat + 10)
  else none

def hexDigitsVal (s : Str) : Option Nat :=
  if s = [] then none
  else
    s.foldl
      (fun acc c =>
        match acc, hexVal c with
        | some a, some d => some (a * 16 + d)
        | _, _ => none)
      (some 0)

/-- `u8::from_str_radix(s, 16)`: optional sign, then hex digits, value must
fit in a byte. -/
def fromStrRadix16 (s : Str) : Option Nat :=
  let core :=
    match s with
    | '+' :: rest => hexDigitsVal rest
    | '-' :: rest =>
      match hexDigitsVal rest with
      | some 0 => some 0
      | _ => none
    | _ => hexDigitsVal s
  match core with
  | some v => if v < 256 then some v else none
  | none => none

/-- Three-valued result of `parse_hex_color`: `Ok(color)`, an `Err` that
the caller swallows, or a Rust panic (a byte slice across a character
boundary), which aborts the whole process. -/
inductive HexResult where
  | ok (c : Color)
  | err
  | panic
deriving DecidableEq

/-- UTF-8 byte width of one character (Rust `char::len_utf8`). -/
def charUtf8Size (c : Char) : Nat :=
  if c.toNat < 0x80 then 1
  else if c.toNat < 0x800 then 2
  else if c.toNat < 0x10000 then 3
  else 4

/-- UTF-8 byte length of a string (Rust `str::len`). -/
def utf8Length (s : Str) : Nat := s.foldr (fun c acc => charUtf8Size c + acc) 0

/-- The characters occupying bytes [0, n) of the UTF-8 encoding, or `none`
when byte `n` is not a character boundary — where Rust `&s[..n]` panics. -/
def takeBytes : Nat → Str → Option Str
  | 0, _ => some []
  | _ + 1, [] => none
  | n + 1, c :: cs =>
    if charUtf8Size c ≤ n + 1 then
      (takeBytes (n + 1 - charUtf8Size c) cs).map (fun r => c :: r)
    else none

/-- The characters after byte `n` of the UTF-8 encoding, or `none` when
byte `n` is not a character boundary — where Rust `&s[n..]` panics. -/
def dropBytes : Nat → Str → Option Str
  | 0, s => some s
  | _ + 1, [] => none
  | n + 1, c :: cs =>
    if charUtf8Size c ≤ n + 1 then dropBytes (n + 1 - charUtf8Size c) cs
    else none

/-- `TodoApp::parse_hex_color`: strip leading `#`s, require exactly six
BYTES, then evaluate `&hex[0..2]`, `&hex[2..4]`, `&hex[4..6]` in order.
Each slice panics when one of its boundaries falls inside a multibyte
character; each pair is parsed with `u8::from_str_radix(_, 16)`, whose
`Err` returns early through `?` before the next slice is evaluated. -/
def parse_hex_color (hex : Str) : HexResult :=
  let hex := hex.dropWhile (fun c => c = '#')
  if utf8Length hex ≠ 6 then HexResult.err
  else
    match takeBytes 2 hex with
    | none => HexResult.panic
    | some s1 =>
      match fromStrRadix16 s1 with
      | none => HexResult.err
      | some r =>
        match (dropBytes 2 hex).bind (takeBytes 2) with
        | none => HexResult.panic
        | some s2 =>
          match fromStrRadix16 s2 with
          | none => HexResult.err
          | some g =>
            match (dropBytes 4 hex).bind (takeBytes 2) with
            | none => HexResult.panic
            | some s3 =>
              match fromStrRadix16 s3 with
              | none => HexResult.err
              | some b => HexResult.ok ⟨r, g, b⟩

structure AlacrittyPrimary where
  background : Option Str
  foreground : Option Str
deriving DecidableEq

structure AlacrittyNormal where
  black : Option Str
  red : Option Str
  green : Option Str
  yellow : Option Str
  blue : Option Str
  magenta : Option Str
  cyan : Option Str
  white : Option Str
deriving DecidableEq

structure AlacrittyColors where
  primary : Option AlacrittyPrimary
  normal : Option AlacrittyNormal
deriving DecidableEq

structure AlacrittyFontFamily where
  family : Option Str
deriving DecidableEq

structure AlacrittyFont where
  normal : Option AlacrittyFontFamily
  size : Option ℚ
deriving DecidableEq

/-- The `[general]` section; the source field is named `import`. -/
structure AlacrittyGeneral where
  imports : Option (List Str)
deriving DecidableEq

structure AlacrittyConfig where
  colors : Option AlacrittyColors
  general : Option AlacrittyGeneral
  font : Option AlacrittyFont
deriving DecidableEq

/-- The `if let Some(v) = field { if let Ok(color) = parse_hex_color(v) {
set } }` pattern repeated for every color field of `load_theme_from_file`:
an absent field or an `Err` leaves the theme as it was; a panic (`none`)
aborts the program. -/
def applyColorField (th : Theme) (o : Option Str) (set : Theme → Color → Theme) :
    Option Theme :=
  match o with
  | some s =>
    match parse_hex_color s with
    | HexResult.ok c => some (set th c)
    | HexResult.err => some th
    | HexResult.panic => none
  | none => some th

/-- The `colors.primary` block of `load_theme_from_file`. -/
def apply_primary (th : Theme) (p : AlacrittyPrimary) : Option Theme :=
  (applyColorField th p.background (fun th c => { th with background := c })).bind fun th =>
  applyColorField th p.foreground (fun th c => { th with foreground := c })

/-- The cyan-else-black step of the `colors.normal` block: `black` is only
consulted when `cyan` is absent, not when it fails to parse. -/
def applyNormalCyan (th : Theme) (n : AlacrittyNormal) : Option Theme :=
  match n.cyan with
  | some s =>
    match parse_hex_color s with
    | HexResult.ok c => some { th with done_color := c, cyan := some c }
    | HexResult.err => some th
    | HexResult.panic => none
  | none => applyColorField th n.black (fun th c => { th with done_color := c })

/-- The `colors.normal` block of `load_theme_from_file`. -/
def apply_normal (th : Theme) (n : AlacrittyNormal) : Option Theme :=
  (applyColorField th n.blue (fun th c => { th with accent := c, blue := some c })).bind fun th =>
  (applyColorField th n.white (fun th c => { th with border := c, white := some c })).bind fun th =>
  (applyNormalCyan th n).bind fun th =>
  (applyColorField th n.red (fun th c => { th with red := some c })).bind fun th =>
  (applyColorField th n.green (fun th c => { th with green := some c })).bind fun th =>
  (applyColorField th n.yellow (fun th c => { th with yellow := some c })).bind fun th =>
  applyColorField th n.magenta (fun th c => { th with magenta := some c })

/-- The colors-then-font application of one parsed config file (everything
in `load_theme_from_file` after the import recursion); the font section
parses nothing and cannot panic. -/
def apply_config (th : Theme) (cfg : AlacrittyConfig) : Option Theme :=
  (match cfg.colors with
   | some colors =>
     (match colors.primary with
      | some p => apply_primary th p
      | none => some th).bind fun th =>
     match colors.normal with
     | some n => apply_normal th n
     | none => some th
   | none => some th).bind fun th =>
  match cfg.font with
  | some f =>
    let th :=
      match f.size with
      | some sz => { th with font_size := some sz }
      | none => th
    some
      (match f.normal with
       | some fam =>
         match fam.family with
         | some name => { th with font_family := some name }
         | none => th
       | none => th)
  | none => some th

/-- `TodoApp::load_theme_from_file`. `fs` maps a path to its parsed config;
`none` covers both an unreadable file and a TOML parse failure — in both
cases the source applies nothing. Imports are applied before the current
file, and a panic anywhere propagates as `none`. The `fuel` argument makes
the unguarded source recursion total; the source itself would not
terminate on a cyclic import chain. -/
def load_theme_from_file (fs : Str → Option AlacrittyConfig) :
    Nat → Theme → Str → Option Theme
  | 0, th, _ => some th
  | fuel + 1, th, path =>
    match fs path with
    | none => some th
    | some config =>
      (match config.general with
       | some g =>
         match g.imports with
         | some paths =>
           paths.foldlM (fun acc p => load_theme_from_file fs fuel acc p) th
         | none => some th
       | none => some th).bind fun th =>
      apply_config th config

/-- `TodoApp::load_theme`: always re-seed from the built-in defaults, then
overlay the config file when one is configured. A `none` result means the
program panicked inside `parse_hex_color` instead of producing a theme. -/
def load_theme (fs : Str → Option AlacrittyConfig) (fuel : Nat)
    (config_path : Option Str) : Option Theme :=
  let th := Theme.default
  match config_path with
  | none => some th
  | some p => load_theme_from_file fs fuel th p

/-! ### Helper lemmas: whitespace trimming -/

theorem dw_length_le (p : Char → Bool) (l : Str) :
    (List.dropWhile p l).length ≤ l.length := by
  induction l with
  | nil => simp
  | cons c l ih =>
    simp only [List.dropWhile_cons]
    split
    · exact Nat.le_trans ih (Nat.le_succ _)
    · simp

theorem dw_eq_of_length (p : Char → Bool) (l : Str)
    (h : (List.dropWhile p l).length = l.length) : List.dropWhile p l = l := by
  induction l with
  | nil => simp
  | cons c l ih =>
    by_cases hc : p c
    · exfalso
      have h1 := dw_length_le p l
      simp [List.dropWhile_cons, hc] at h
      omega
    · simp [List.dropWhile_cons, hc]

theorem dw_idem (p : Char → Bool) (l : Str) :
    List.dropWhile p (List.dropWhile p l) = List.dropWhile p l := by
  induction l with
  | nil => simp
  | cons c l ih =>
    by_cases hc : p c
    · simp [List.dropWhile_cons, hc, ih]
    · simp [List.dropWhile_cons, hc]

theorem ltrim_idem (s : Str) : ltrim (ltrim s) = ltrim s := by
  simp [ltrim, dw_idem]

theorem rtrim_idem (s : Str) : rtrim (rtrim s) = rtrim s := by
  simp [rtrim, List.reverse_reverse, dw_idem]

theorem ltrim_cons_of_not_ws (c : Char) (s : Str) (h : rustIsWhitespace c = false) :
    ltrim (c :: s) = c :: s := by
  simp [ltrim, List.dropWhile_cons, h]

theorem rtrim_append_of_ne (a b : Str) (h : rtrim b ≠ []) :
    rtrim (a ++ b) = a ++ rtrim b := by
  have hb : (List.dropWhile rustIsWhitespace b.reverse).isEmpty = false := by
    cases hdw : List.dropWhile rustIsWhitespace b.reverse with
    | nil => exact absurd (by simp [rtrim, hdw]) h
    | cons x xs => rfl
  simp only [rtrim, List.reverse_append, List.dropWhile_append, hb]
  simp

theorem rtrim_ltrim_of_fix (u : Str) (h : rtrim u = u) : rtrim (ltrim u) = ltrim u := by
  have hrev : List.dropWhile rustIsWhitespace u.reverse = u.reverse := by
    have h1 : (rtrim u).reverse = u.reverse := by rw [h]
    simpa [rtrim, List.reverse_reverse] using h1
  cases hlt : ltrim u with
  | nil => simp [rtrim, hlt]
  | cons x xs =>
    have hurev : u.reverse =
        (ltrim u).reverse ++ (List.takeWhile rustIsWhitespace u).reverse := by
      conv_lhs => rw [← List.takeWhile_append_dropWhile (p := rustIsWhitespace) (l := u)]
      rw [List.reverse_append]
      rfl
    have hkey := hrev
    rw [hurev, List.dropWhile_append] at hkey
    by_cases hie : (List.dropWhile rustIsWhitespace (ltrim u).reverse).isEmpty = true
    · rw [if_pos hie] at hkey
      exfalso
      have h1 := dw_length_le rustIsWhitespace (List.takeWhile rustIsWhitespace u).reverse
      have h2 := congrArg List.length hkey
      have h3 : (ltrim u).length > 0 := by rw [hlt]; simp
      simp only [List.length_append, List.length_reverse] at h1 h2
      omega
    · rw [if_neg hie] at hkey
      have hlen : (List.dropWhile rustIsWhitespace (ltrim u).reverse).length =
          (ltrim u).reverse.length := by
        have h2 := congrArg List.length hkey
        simp only [List.length_append] at h2
        omega
      have h4 := dw_eq_of_length rustIsWhitespace (ltrim u).reverse hlen
      have hgoal : rtrim (ltrim u) = ltrim u := by simp [rtrim, h4]
      rw [hlt] at hgoal
      exact hgoal

theorem trim_idem (s : Str) : trim (trim s) = trim s := by
  unfold trim
  rw [rtrim_ltrim_of_fix (rtrim s) (rtrim_idem s), ltrim_idem]

theorem rtrim_of_trim_eq (x : Str) (h : trim x = x) : rtrim x = x := by
  have h1 : (rtrim x).length ≤ x.length := by
    have h2 := dw_length_le rustIsWhitespace x.reverse
    simpa [rtrim] using h2
  have h2 : (ltrim (rtrim x)).length ≤ (rtrim x).length := dw_length_le _ _
  have h3 : (ltrim (rtrim x)).length = x.length := by
    rw [show ltrim (rtrim x) = x from h]
  have h5 : (List.dropWhile rustIsWhitespace x.reverse).length = x.reverse.length := by
    have h4 : (rtrim x).length = x.length := by omega
    simpa [rtrim] using h4
  have h6 := dw_eq_of_length rustIsWhitespace x.reverse h5
  simp [rtrim, h6]

theorem ltrim_of_trim_eq (x : Str) (h : trim x = x) : ltrim x = x := by
  have hr := rtrim_of_trim_eq x h
  calc ltrim x = ltrim (rtrim x) := by rw [hr]
    _ = x := h

theorem trim_space_cons (text : Str) (h : trim text = text) (hne : text ≠ []) :
    trim (' ' :: text) = text := by
  have hr := rtrim_of_trim_eq text h
  have hl := ltrim_of_trim_eq text h
  have hsp : rustIsWhitespace ' ' = true := by decide
  have h1 : rtrim (' ' :: text) = ' ' :: text := by
    have h2 : rtrim ([' '] ++ text) = [' '] ++ rtrim text :=
      rtrim_append_of_ne [' '] text (by rw [hr]; exact hne)
    simpa [hr] using h2
  unfold trim
  rw [h1]
  calc ltrim (' ' :: text) = ltrim text := by simp [ltrim, List.dropWhile_cons, hsp]
    _ = text := hl

theorem stripCR_cases (s : Str) :
    stripCR s = s ∨ ∃ a, s = a ++ ['\r'] ∧ stripCR s = a := by
  unfold stripCR
  cases hrev : s.reverse with
  | nil => left; rfl
  | cons c rest =>
    by_cases hc : c = '\r'
    · right
      refine ⟨rest.reverse, ?_, ?_⟩
      · rw [← List.reverse_reverse s, hrev]
        simp [hc]
      · simp [hc]
    · left; simp [hc]

theorem trim_stripCR (s : Str) : trim (stripCR s) = trim s := by
  rcases stripCR_cases s with h | ⟨a, hs, h⟩
  · rw [h]
  · rw [h, hs]
    unfold trim
    have h1 : rtrim (a ++ ['\r']) = rtrim a := by
      simp [rtrim, List.reverse_append, List.dropWhile_cons,
        show rustIsWhitespace '\r' = true from by decide]
    rw [h1]

theorem parseLine_congr (a b : Str) (h : trim a = trim b) : parseLine a = parseLine b := by
  unfold parseLine
  rw [h]

/-! ### Helper lemmas: the project-split rule -/

theorem findColon_eq_none (s : Str) (h : ':' ∉ s) : findColon s = none := by
  induction s with
  | nil => rfl
  | cons c cs ih =>
    simp only [List.mem_cons, not_or] at h
    have hc : ¬ c = ':' := fun hce => h.1 hce.symm
    simp [findColon, hc, ih h.2]

theorem findColon_append (a b : Str) (h : ':' ∉ a) :
    findColon (a ++ ':' :: b) = some a.length := by
  induction a with
  | nil => simp [findColon]
  | cons c a ih =>
    simp only [List.mem_cons, not_or] at h
    have hc : ¬ c = ':' := fun hce => h.1 hce.symm
    simp [findColon, hc, ih h.2]

theorem parse_todo_text_no_colon (x : Str) (h : ':' ∉ x) :
    parse_todo_text x = (x, none) := by
  simp [parse_todo_text, findColon_eq_none x h]

theorem take_append_self (a b : Str) : (a ++ b).take a.length = a :=
  List.take_left a b

theorem drop_append_colon (a b : Str) : (a ++ ':' :: b).drop (a.length + 1) = b := by
  rw [show a ++ ':' :: b = (a ++ [':']) ++ b by simp,
    show a.length + 1 = (a ++ [':']).length by simp, List.drop_left]

theorem parse_todo_text_split (p text : Str) (hp : ':' ∉ p)
    (hpt : trim p = p) (hpe : p ≠ []) (ht : trim text = text) (hte : text ≠ []) :
    parse_todo_text (p ++ ':' :: ' ' :: text) = (text, some p) := by
  have hf := findColon_append p (' ' :: text) hp
  simp only [parse_todo_text, hf, take_append_self, drop_append_colon, hpt,
    trim_space_cons text ht hte]
  simp [hpe, hte]

theorem parse_todo_text_split_none (pre post : Str) (hp : ':' ∉ pre)
    (h : trim pre = [] ∨ trim post = []) :
    parse_todo_text (pre ++ ':' :: post) = (pre ++ ':' :: post, none) := by
  have hf := findColon_append pre post hp
  simp only [parse_todo_text, hf, take_append_self, drop_append_colon]
  rcases h with h | h <;> simp [h]

theorem parse_todo_text_of_snd_none (x : Str) (h : (parse_todo_text x).2 = none) :
    parse_todo_text x = (x, none) := by
  cases hf : findColon x with
  | none => simp [parse_todo_text, hf]
  | some i =>
    simp only [parse_todo_text, hf] at h ⊢
    by_cases hc : trim (x.take i) ≠ [] ∧ trim (x.drop (i + 1)) ≠ []
    · rw [if_pos hc] at h
      simp at h
    · rw [if_neg hc]

theorem parse_fst_trim_ne (x : Str) (hx : x ≠ []) (ht : trim x = x) :
    trim (parse_todo_text x).1 ≠ [] := by
  cases hf : findColon x with
  | none => simp only [parse_todo_text, hf]; simpa [ht] using hx
  | some i =>
    simp only [parse_todo_text, hf]
    by_cases hc : trim (x.take i) ≠ [] ∧ trim (x.drop (i + 1)) ≠ []
    · rw [if_pos hc]
      simpa [trim_idem] using hc.2
    · rw [if_neg hc]
      simpa [ht] using hx

/-! ### Helper lemmas: serialization and line parsing -/

theorem isPrefixOf_append_self (a b : Str) : List.isPrefixOf a (a ++ b) = true := by
  induction a with
  | nil => simp [List.isPrefixOf]
  | cons c a ih => simp [List.isPrefixOf, ih]

theorem serializeLine_false (t : Todo) (h : t.done = false) :
    serializeLine t = markerPending ++ displayText t := by
  simp [serializeLine, h, boxPending, markerPending]

theorem serializeLine_true (t : Todo) (h : t.done = true) :
    serializeLine t = markerDone ++ displayText t := by
  simp [serializeLine, h, boxDone, markerDone]

theorem roundTripSafe_spec (t : Todo) (h : roundTripSafe t = true) :
    t.text ≠ [] ∧ trim t.text = t.text ∧ '\n' ∉ t.text ∧
      ((t.project = none ∧ (parse_todo_text t.text).2 = none) ∨
       (∃ p, t.project = some p ∧ p ≠ [] ∧ trim p = p ∧ ':' ∉ p ∧ '\n' ∉ p)) := by
  cases hp : t.project with
  | none =>
    simp only [roundTripSafe, hp] at h
    simp at h
    exact ⟨h.1.1.1, h.1.1.2, h.1.2, Or.inl ⟨rfl, h.2⟩⟩
  | some p =>
    simp only [roundTripSafe, hp] at h
    simp at h
    exact ⟨h.1.1.1, h.1.1.2, h.1.2,
      Or.inr ⟨p, rfl, h.2.1.1.1, h.2.1.1.2, h.2.1.2, h.2.2⟩⟩

theorem newline_not_mem_display (t : Todo) (h : roundTripSafe t = true) :
    '\n' ∉ displayText t := by
  obtain ⟨hne, htr, hnl, hproj⟩ := roundTripSafe_spec t h
  rcases hproj with ⟨hp, _⟩ | ⟨p, hp, _, _, _, hpnl⟩
  · simpa [displayText, hp] using hnl
  · simp only [displayText, hp]
    intro hmem
    rcases List.mem_append.mp hmem with hmem | hmem
    · rcases List.mem_append.mp hmem with hmem | hmem
      · exact hpnl hmem
      · simp at hmem
    · exact hnl hmem

theorem newline_not_mem_serializeLine (t : Todo) (h : roundTripSafe t = true) :
    '\n' ∉ serializeLine t := by
  have hd := newline_not_mem_display t h
  cases hdone : t.done
  · rw [serializeLine_false t hdone]
    intro hmem
    rcases List.mem_append.mp hmem with hmem | hmem
    · simp [markerPending] at hmem
    · exact hd hmem
  · rw [serializeLine_true t hdone]
    intro hmem
    rcases List.mem_append.mp hmem with hmem | hmem
    · simp [markerDone] at hmem
    · exact hd hmem

theorem display_rtrim (t : Todo) (h : roundTripSafe t = true) :
    rtrim (displayText t) = displayText t := by
  obtain ⟨hne, htr, hnl, hproj⟩ := roundTripSafe_spec t h
  have hrt : rtrim t.text = t.text := rtrim_of_trim_eq _ htr
  rcases hproj with ⟨hp, _⟩ | ⟨p, hp, _, _, _, _⟩
  · simpa [displayText, hp] using hrt
  · simp only [displayText, hp]
    rw [rtrim_append_of_ne _ _ (by rw [hrt]; exact hne), hrt]

theorem display_ne_nil (t : Todo) (h : roundTripSafe t = true) :
    displayText t ≠ [] := by
  obtain ⟨hne, _, _, hproj⟩ := roundTripSafe_spec t h
  rcases hproj with ⟨hp, _⟩ | ⟨p, hp, _, _, _, _⟩
  · simpa [displayText, hp] using hne
  · simp [displayText, hp, hne]

theorem trim_marker_append (m d : Str) (hm : m = markerPending ∨ m = markerDone)
    (hd1 : rtrim d = d) (hd2 : d ≠ []) : trim (m ++ d) = m ++ d := by
  have hr : rtrim (m ++ d) = m ++ d := by
    rw [rtrim_append_of_ne m d (by rw [hd1]; exact hd2), hd1]
  unfold trim
  rw [hr]
  rcases hm with hm | hm <;> subst hm
  · exact ltrim_cons_of_not_ws '[' (' ' :: ']' :: ' ' :: d) (by decide)
  · exact ltrim_cons_of_not_ws '[' ('x' :: ']' :: ' ' :: d) (by decide)

theorem parseLine_pending (d : Str) (h : trim (markerPending ++ d) = markerPending ++ d) :
    parseLine (markerPending ++ d) =
      some { text := (parse_todo_text d).1, done := false,
             project := (parse_todo_text d).2 } := by
  unfold parseLine
  rw [h]
  have h1 : (markerPending ++ d).drop 4 = d := rfl
  simp [isPrefixOf_append_self, h1]

theorem parseLine_done (d : Str) (h : trim (markerDone ++ d) = markerDone ++ d) :
    parseLine (markerDone ++ d) =
      some { text := (parse_todo_text d).1, done := true,
             project := (parse_todo_text d).2 } := by
  unfold parseLine
  rw [h]
  have h1 : List.isPrefixOf markerPending (markerDone ++ d) = false := rfl
  have h2 : (markerDone ++ d).drop 4 = d := rfl
  simp [h1, h2, isPrefixOf_append_self]

theorem parse_displayText (t : Todo) (h : roundTripSafe t = true) :
    parse_todo_text (displayText t) = (t.text, t.project) := by
  obtain ⟨hne, htr, hnl, hproj⟩ := roundTripSafe_spec t h
  rcases hproj with ⟨hp, hparse⟩ | ⟨p, hp, hpne, hptr, hpc, hpnl⟩
  · simp only [displayText, hp]
    rw [parse_todo_text_of_snd_none _ hparse]
  · simp only [displayText, hp]
    rw [show p ++ [':', ' '] ++ t.text = p ++ ':' :: ' ' :: t.text by simp,
      parse_todo_text_split p t.text hpc hptr hpne htr hne]

theorem parseLine_serializeLine (t : Todo) (h : roundTripSafe t = true) :
    parseLine (serializeLine t) = some t := by
  have hd1 := display_rtrim t h
  have hd2 := display_ne_nil t h
  have hparse := parse_displayText t h
  cases hdone : t.done
  · rw [serializeLine_false t hdone,
      parseLine_pending _ (trim_marker_append markerPending _ (Or.inl rfl) hd1 hd2),
      hparse]
    cases t
    simp_all
  · rw [serializeLine_true t hdone,
      parseLine_done _ (trim_marker_append markerDone _ (Or.inr rfl) hd1 hd2),
      hparse]
    cases t
    simp_all

/-! ### Helper lemmas: whole-file round trip -/

theorem splitOnChar_ne_nil (c : Char) (s : Str) : splitOnChar c s ≠ [] := by
  induction s with
  | nil => simp [splitOnChar]
  | cons x xs ih =>
    simp only [splitOnChar]
    by_cases hx : x = c
    · simp [hx]
    · simp only [if_neg hx]
      cases h : splitOnChar c xs with
      | nil => simp
      | cons a l => simp

theorem splitOnChar_append_cons (c : Char) (a b : Str) (h : c ∉ a) :
    splitOnChar c (a ++ c :: b) = a :: splitOnChar c b := by
  induction a with
  | nil => simp [splitOnChar]
  | cons x xs ih =>
    simp only [List.mem_cons, not_or] at h
    have hx : ¬ x = c := fun he => h.1 he.symm
    simp only [List.cons_append, splitOnChar, if_neg hx]
    rw [List.append_eq, ih h.2]

theorem dropLastEmpty_cons_of_ne (a : Str) (l : List Str) (h : l ≠ []) :
    dropLastEmpty (a :: l) = a :: dropLastEmpty l := by
  cases l with
  | nil => exact absurd rfl h
  | cons b rest => rfl

theorem rustLines_cons (body rest : Str) (h : '\n' ∉ body) :
    rustLines (body ++ '\n' :: rest) = stripCR body :: rustLines rest := by
  unfold rustLines
  rw [splitOnChar_append_cons '\n' body rest h,
    dropLastEmpty_cons_of_ne body _ (splitOnChar_ne_nil '\n' rest)]
  rfl

theorem save_todos_cons (t : Todo) (rest : List Todo) :
    save_todos (t :: rest) = serializeLine t ++ '\n' :: save_todos rest := by
  simp [save_todos]

theorem parseLine_stripCR_serializeLine (t : Todo) (h : roundTripSafe t = true) :
    parseLine (stripCR (serializeLine t)) = some t := by
  rw [parseLine_congr _ (serializeLine t) (trim_stripCR _)]
  exact parseLine_serializeLine t h

theorem load_save_roundTrip : ∀ (todos : List Todo),
    (∀ t ∈ todos, roundTripSafe t = true) →
    load_todos (some (save_todos todos)) [] = todos := by
  intro todos
  induction todos with
  | nil => intro _; rfl
  | cons t rest ih =>
    intro h
    have ht := h t (List.mem_cons_self t rest)
    have hrest : ∀ u ∈ rest, roundTripSafe u = true :=
      fun u hu => h u (List.mem_cons_of_mem t hu)
    have hnl : '\n' ∉ serializeLine t := newline_not_mem_serializeLine t ht
    simp only [load_todos] at ih ⊢
    rw [save_todos_cons, rustLines_cons _ _ hnl, List.filterMap_cons,
      parseLine_stripCR_serializeLine t ht, ih hrest]

/-! ### Helper lemmas: enumeration, filtering and index updates -/

theorem enumFromIdx_length {α : Type} (n : Nat) (l : List α) :
    (enumFromIdx n l).length = l.length := by
  induction l generalizing n with
  | nil => rfl
  | cons x xs ih => simp [enumFromIdx, ih]

theorem mem_enumFromIdx {α : Type} (l : List α) :
    ∀ (n i : Nat) (x : α),
    ((i, x) ∈ enumFromIdx n l ↔ ∃ k, i = n + k ∧ l.get? k = some x) := by
  induction l with
  | nil => intro n i x; simp [enumFromIdx]
  | cons y ys ih =>
    intro n i x
    simp only [enumFromIdx, List.mem_cons]
    constructor
    · rintro (heq | hmem)
      · have h1 : i = n := congrArg Prod.fst heq
        have h2 : x = y := congrArg Prod.snd heq
        exact ⟨0, by omega, by simp [h2]⟩
      · obtain ⟨k, hk, hget⟩ := (ih (n + 1) i x).mp hmem
        exact ⟨k + 1, by omega, by simpa using hget⟩
    · rintro ⟨k, hk, hget⟩
      cases k with
      | zero =>
        left
        have hxy : y = x := by simpa using hget
        subst hxy
        simp [Prod.ext_iff]
        omega
      | succ j =>
        right
        exact (ih (n + 1) i x).mpr ⟨j, by omega, by simpa using hget⟩

theorem filter_enumFromIdx_length {α : Type} (q : α → Bool) (l : List α) :
    ∀ n, ((enumFromIdx n l).filter (fun it => q it.2)).length = l.countP q := by
  induction l with
  | nil => intro n; rfl
  | cons x xs ih =>
    intro n
    simp only [enumFromIdx, List.filter_cons]
    by_cases hq : q x
    · simp [hq, ih, List.countP_cons]
    · simp [hq, ih, List.countP_cons]

theorem filtered_todos_length (s : AppState) :
    (filtered_todos s).length =
      s.todos.countP (fun t =>
        matchesFilter s.filter t && matchesProject s.project_filter t &&
          matchesSearch s.search t) := by
  unfold filtered_todos
  exact filter_enumFromIdx_length
    (fun t => matchesFilter s.filter t && matchesProject s.project_filter t &&
      matchesSearch s.search t) s.todos 0

theorem get?_some_lt {α : Type} (l : List α) (i : Nat) (x : α) (h : l.get? i = some x) :
    i < l.length := by
  by_contra hge
  rw [List.get?_eq_none.mpr (by omega)] at h
  cases h

theorem get?_lt_isSome {α : Type} (l : List α) (i : Nat) (h : i < l.length) :
    ∃ x, l.get? i = some x := by
  cases hx : l.get? i with
  | none => rw [List.get?_eq_none] at hx; omega
  | some x => exact ⟨x, rfl⟩

theorem countP_eraseIdx_of_get {α : Type} (q : α → Bool) :
    ∀ (l : List α) (i : Nat) (x : α), l.get? i = some x → q x = true →
    (l.eraseIdx i).countP q + 1 = l.countP q := by
  intro l
  induction l with
  | nil => intro i x h _; cases h
  | cons y ys ih =>
    intro i x h hq
    cases i with
    | zero =>
      have hxy : y = x := by simpa using h
      subst hxy
      show ys.countP q + 1 = (y :: ys).countP q
      simp [List.countP_cons, hq]
    | succ j =>
      have h2 : ys.get? j = some x := by simpa using h
      have h3 := ih j x h2 hq
      show (y :: ys.eraseIdx j).countP q + 1 = (y :: ys).countP q
      simp only [List.countP_cons]
      omega

theorem modifyIdx_length {α : Type} (f : α → α) :
    ∀ (i : Nat) (l : List α), (modifyIdx f i l).length = l.length := by
  intro i l
  induction l generalizing i with
  | nil => cases i <;> rfl
  | cons x xs ih =>
    cases i with
    | zero => rfl
    | succ j => simpa [modifyIdx] using ih j

theorem modifyIdx_get?_self {α : Type} (f : α → α) :
    ∀ (i : Nat) (l : List α), (modifyIdx f i l).get? i = (l.get? i).map f := by
  intro i l
  induction l generalizing i with
  | nil => cases i <;> rfl
  | cons x xs ih =>
    cases i with
    | zero => rfl
    | succ j => simpa [modifyIdx] using ih j

theorem modifyIdx_get?_ne {α : Type} (f : α → α) :
    ∀ (i j : Nat) (l : List α), j ≠ i → (modifyIdx f i l).get? j = l.get? j := by
  intro i j l
  induction l generalizing i j with
  | nil => intro _; cases i <;> rfl
  | cons x xs ih =>
    intro h
    cases i with
    | zero =>
      cases j with
      | zero => exact absurd rfl h
      | succ k => rfl
    | succ i' =>
      cases j with
      | zero => rfl
      | succ k => simpa [modifyIdx] using ih i' k (fun he => h (by omega))

theorem mem_modifyIdx {α : Type} (f : α → α) :
    ∀ (i : Nat) (l : List α) (t : α), t ∈ modifyIdx f i l →
    t ∈ l ∨ ∃ u, u ∈ l ∧ t = f u := by
  intro i l
  induction l generalizing i with
  | nil => intro t ht; cases i <;> simp [modifyIdx] at ht
  | cons x xs ih =>
    intro t ht
    cases i with
    | zero =>
      rcases List.mem_cons.mp ht with h | h
      · exact Or.inr ⟨x, List.mem_cons_self x xs, h⟩
      · exact Or.inl (List.mem_cons_of_mem x h)
    | succ j =>
      rcases List.mem_cons.mp ht with h | h
      · exact Or.inl (h ▸ List.mem_cons_self x xs)
      · rcases ih j t h with h2 | ⟨u, hu, he⟩
        · exact Or.inl (List.mem_cons_of_mem x h2)
        · exact Or.inr ⟨u, List.mem_cons_of_mem x hu, he⟩

theorem filtered_todos_sound (s : AppState) (i ri : Nat) (t : Todo)
    (h : (filtered_todos s).get? i = some (ri, t)) :
    s.todos.get? ri = some t ∧
      (matchesFilter s.filter t && matchesProject s.project_filter t &&
        matchesSearch s.search t) = true := by
  have hmem : (ri, t) ∈ filtered_todos s := List.get?_mem h
  unfold filtered_todos at hmem
  rw [List.mem_filter] at hmem
  obtain ⟨hmem, hq⟩ := hmem
  obtain ⟨k, hk, hget⟩ := (mem_enumFromIdx s.todos 0 ri t).mp hmem
  exact ⟨by rw [show ri = k by omega]; exact hget, hq⟩

/-! ### Claim C5: the project-split rule -/

/-- C5 (confirmed): `parse_todo_text` splits on the first colon and returns
(trimmed suffix, some (trimmed prefix)) exactly when both trimmed sides are
non-empty; otherwise — and when there is no colon at all — it returns the
original text verbatim with no project. The specification's concrete
examples ("work: fix bug", "foo:", ":bar", "  : orphaned", "no colon here")
behave as stated. -/
theorem claim_C5_project_split :
    (∀ text : Str, ':' ∉ text → parse_todo_text text = (text, none)) ∧
    (∀ pre post : Str, ':' ∉ pre → trim pre ≠ [] → trim post ≠ [] →
      parse_todo_text (pre ++ ':' :: post) = (trim post, some (trim pre))) ∧
    (∀ pre post : Str, ':' ∉ pre → (trim pre = [] ∨ trim post = []) →
      parse_todo_text (pre ++ ':' :: post) = (pre ++ ':' :: post, none)) ∧
    parse_todo_text (chars "work: fix bug") = (chars "fix bug", some (chars "work")) ∧
    parse_todo_text (chars "foo:") = (chars "foo:", none) ∧
    parse_todo_text (chars ":bar") = (chars ":bar", none) ∧
    parse_todo_text (chars "  : orphaned") = (chars "  : orphaned", none) ∧
    parse_todo_text (chars "no colon here") = (chars "no colon here", none) := by
  refine ⟨parse_todo_text_no_colon, ?_, parse_todo_text_split_none,
    by decide, by decide, by decide, by decide, by decide⟩
  intro pre post hp h1 h2
  have hf := findColon_append pre post hp
  simp only [parse_todo_text, hf, take_append_self, drop_append_colon]
  simp [h1, h2]

/-- Witness for C5: the general split clause applied at "work" / " fix bug". -/
theorem claim_C5_project_split_witness :
    parse_todo_text (chars "work" ++ ':' :: chars " fix bug") =
      (trim (chars " fix bug"), some (trim (chars "work"))) :=
  claim_C5_project_split.2.1 (chars "work") (chars " fix bug")
    (by decide) (by decide) (by decide)

/-! ### Claim C4: line recognition on load -/

/-- C4 as stated is false: the line " [ ] a" starts with a space, not with
either literal marker, yet `load_todos` recognizes it as a pending task
because the source trims each line before the marker test. -/
theorem claim_C4_counterexample :
    parseLine (chars " [ ] a") =
      some { text := chars "a", done := false, project := none } ∧
    List.isPrefixOf markerPending (chars " [ ] a") = false ∧
    List.isPrefixOf markerDone (chars " [ ] a") = false := by decide

/-- C4 (amended): a line is recognized as a task iff its
whitespace-trimmed form starts with "[ ] " (giving done = false) or
"[x] " (giving done = true); every other line is ignored without error;
and a failed read of the backing file leaves the collection as it was —
empty at startup. -/
theorem claim_C4_load_recognition :
    (∀ (line : Str) (t : Todo), parseLine line = some t →
      (List.isPrefixOf markerPending (trim line) = true ∧ t.done = false) ∨
      (List.isPrefixOf markerDone (trim line) = true ∧ t.done = true)) ∧
    (∀ line : Str, List.isPrefixOf markerPending (trim line) = false →
      List.isPrefixOf markerDone (trim line) = false → parseLine line = none) ∧
    load_todos none [] = [] := by
  refine ⟨?_, ?_, rfl⟩
  · intro line t h
    simp only [parseLine] at h
    by_cases h1 : List.isPrefixOf markerPending (trim line) = true
    · left
      rw [if_pos h1] at h
      cases h
      exact ⟨h1, rfl⟩
    · right
      rw [if_neg h1] at h
      by_cases h2 : List.isPrefixOf markerDone (trim line) = true
      · rw [if_pos h2] at h
        cases h
        exact ⟨h2, rfl⟩
      · rw [if_neg h2] at h
        cases h
  · intro line h1 h2
    simp [parseLine, h1, h2]

/-- Witness for C4: the ignored line "x" and a recognized done line. -/
theorem claim_C4_load_recognition_witness :
    parseLine (chars "x") = none ∧
    ((List.isPrefixOf markerPending (trim (chars "[x] a")) = true ∧
        (Todo.mk (chars "a") true none).done = false) ∨
     (List.isPrefixOf markerDone (trim (chars "[x] a")) = true ∧
        (Todo.mk (chars "a") true none).done = true)) :=
  ⟨claim_C4_load_recognition.2.1 (chars "x") (by decide) (by decide),
   claim_C4_load_recognition.1 (chars "[x] a") (Todo.mk (chars "a") true none) (by decide)⟩

/-! ### Claim C1: save/load round trip -/

/-- C1 as stated is false: the task text "a: b" with no project satisfies
the claim's hypotheses (its text starts with neither marker and it has no
project name at all), yet saving and loading re-parses the line as project
"a" with task text "b". -/
theorem claim_C1_counterexample :
    (Todo.mk (chars "a: b") false none).project = none ∧
    List.isPrefixOf markerPending (Todo.mk (chars "a: b") false none).text = false ∧
    List.isPrefixOf markerDone (Todo.mk (chars "a: b") false none).text = false ∧
    load_todos (some (save_todos [Todo.mk (chars "a: b") false none])) [] ≠
      [Todo.mk (chars "a: b") false none] := by decide

/-- C1 (amended): saving then loading reproduces the collection exactly
when every task is round-trip safe: its text is non-empty, trimmed, and
newline-free; a present project name is non-empty, trimmed, colon-free and
newline-free; and a task without a project has a text that the
project-split rule does not split. -/
theorem claim_C1_roundtrip (todos : List Todo)
    (h : ∀ t ∈ todos, roundTripSafe t = true) :
    load_todos (some (save_todos todos)) [] = todos :=
  load_save_roundTrip todos h

/-- Witness for C1: a two-task round-trip-safe collection. -/
theorem claim_C1_roundtrip_witness :
    load_todos (some (save_todos
        [Todo.mk (chars "fix bug") false (some (chars "work")),
         Todo.mk (chars "rest") true none])) [] =
      [Todo.mk (chars "fix bug") false (some (chars "work")),
       Todo.mk (chars "rest") true none] :=
  claim_C1_roundtrip _ (by decide)

/-! ### Claim C10: whitespace-only tasks are dropped on reload -/

theorem dw_eq_nil_all (p : Char → Bool) :
    ∀ l : Str, List.dropWhile p l = [] → ∀ x ∈ l, p x = true := by
  intro l
  induction l with
  | nil => intro _ x hx; cases hx
  | cons c cs ih =>
    intro h x hx
    by_cases hc : p c
    · rcases List.mem_cons.mp hx with rfl | hx2
      · exact hc
      · exact ih (by simpa [List.dropWhile_cons, hc] using h) x hx2
    · simp [List.dropWhile_cons, hc] at h

theorem dw_head_false (p : Char → Bool) :
    ∀ (l : Str) (c : Char) (cs : Str), List.dropWhile p l = c :: cs → p c = false := by
  intro l
  induction l with
  | nil => intro c cs h; cases h
  | cons y ys ih =>
    intro c cs h
    by_cases hy : p y
    · exact ih c cs (by simpa [List.dropWhile_cons, hy] using h)
    · rw [List.dropWhile_cons, if_neg (by simp [hy])] at h
      cases h
      simpa using hy

theorem rtrim_eq_nil_of_trim (text : Str) (h : trim text = []) : rtrim text = [] := by
  cases hz : List.dropWhile rustIsWhitespace text.reverse with
  | nil => simp [rtrim, hz]
  | cons c cs =>
    exfalso
    have hc : rustIsWhitespace c = false := dw_head_false _ _ c cs hz
    have hr : rtrim text = (c :: cs).reverse := by simp [rtrim, hz]
    have h2 : ∀ x ∈ (c :: cs).reverse, rustIsWhitespace x = true := by
      apply dw_eq_nil_all
      have h3 := h
      unfold trim at h3
      rw [hr] at h3
      simpa [ltrim] using h3
    rw [h2 c (by simp)] at hc
    cases hc

theorem rtrim_append_nil (a b : Str) (h : rtrim b = []) : rtrim (a ++ b) = rtrim a := by
  have hb : List.dropWhile rustIsWhitespace b.reverse = [] := by
    have h2 := congrArg List.reverse h
    simpa [rtrim] using h2
  simp [rtrim, List.reverse_append, List.dropWhile_append, hb]

/-- C10 (confirmed): a task whose text trims to nothing and has no project
serializes to a line that trims to the bare three-character box, which the
loader no longer recognizes — saving then loading silently drops it. The
CLI `add` subcommand stores such a task verbatim (it is lost on the next
load), while the GUI commit path can only produce tasks whose text does
not trim to nothing. -/
theorem claim_C10_whitespace_drop :
    (∀ t : Todo, trim t.text = [] → t.project = none →
      parseLine (stripCR (serializeLine t)) = none ∧
      trim (serializeLine t) = (if t.done then boxDone else boxPending)) ∧
    load_todos (some (save_todos
        [Todo.mk [' '] false none, Todo.mk (chars "a") false none])) [] =
      [Todo.mk (chars "a") false none] ∧
    (cli_add none [' ']).1 = [Todo.mk [' '] false none] ∧
    load_todos (some ((cli_add none [' ']).2)) [] = [] ∧
    (∀ (s : AppState) (t : Todo), t ∈ (handle_key_action s KeyAction.SaveEdit).todos →
      t ∈ s.todos ∨ trim t.text ≠ []) := by
  refine ⟨?_, by decide, by decide, by decide, ?_⟩
  · intro t htext hproj
    have h0 : rtrim t.text = [] := rtrim_eq_nil_of_trim t.text htext
    have h1 : rtrim (' ' :: t.text) = [] := by
      have h2 := rtrim_append_nil [' '] t.text h0
      rw [show rtrim [' '] = [] from by decide] at h2
      simpa using h2
    have hline : trim (serializeLine t) = (if t.done then boxDone else boxPending) := by
      unfold serializeLine trim
      rw [show displayText t = t.text from by simp [displayText, hproj]]
      rw [rtrim_append_nil _ _ h1]
      cases t.done <;> decide
    constructor
    · rw [parseLine_congr _ (serializeLine t) (trim_stripCR _)]
      unfold parseLine
      rw [hline]
      cases t.done <;> decide
    · exact hline
  · intro s t ht
    simp only [handle_key_action] at ht
    cases he : s.editing with
    | none =>
      simp only [he] at ht
      exact Or.inl ht
    | some idx =>
      simp only [he] at ht
      by_cases htr : trim s.edit_text = []
      · rw [if_pos htr] at ht
        exact Or.inl ht
      · rw [if_neg htr] at ht
        by_cases hidx : idx < s.todos.length
        · rw [if_pos hidx] at ht
          have ht2 : t ∈ modifyIdx
              (fun u => { u with text := (parse_todo_text (trim s.edit_text)).1,
                                 project := (parse_todo_text (trim s.edit_text)).2 })
              idx s.todos := ht
          rcases mem_modifyIdx _ idx s.todos t ht2 with h | ⟨u, hu, he2⟩
          · exact Or.inl h
          · right
            rw [he2]
            exact parse_fst_trim_ne (trim s.edit_text) htr (trim_idem s.edit_text)
        · rw [if_neg hidx] at ht
          have ht2 : t ∈ s.todos ++
              [Todo.mk (parse_todo_text (trim s.edit_text)).1 false
                (parse_todo_text (trim s.edit_text)).2] := ht
          rcases List.mem_append.mp ht2 with h | h
          · exact Or.inl h
          · right
            have he2 : t = Todo.mk (parse_todo_text (trim s.edit_text)).1 false
                (parse_todo_text (trim s.edit_text)).2 := by simpa using h
            rw [he2]
            exact parse_fst_trim_ne (trim s.edit_text) htr (trim_idem s.edit_text)

/-- Witness for C10: the one-space pending task's serialized line parses to
nothing. -/
theorem claim_C10_whitespace_drop_witness :
    parseLine (stripCR (serializeLine (Todo.mk [' '] false none))) = none ∧
    ¬ ((Todo.mk [' '] false none) ∈ (handle_key_action
        { baseState with editing := some 0, edit_text := [' '] } KeyAction.SaveEdit).todos) :=
  ⟨(claim_C10_whitespace_drop.1 (Todo.mk [' '] false none) (by decide) rfl).1,
   fun hmem => by
    rcases claim_C10_whitespace_drop.2.2.2.2 _ _ hmem with h | h
    · exact absurd h (by decide)
    · exact h (by decide)⟩

/-! ### Claim C6: filter composition -/

theorem matchesFilter_iff (f : Filter) (t : Todo) :
    matchesFilter f t = true ↔ specStatusMatches f t := by
  cases f <;> simp [matchesFilter, specStatusMatches]

theorem matchesProject_iff (pf : ProjectFilter) (t : Todo) :
    matchesProject pf t = true ↔ specProjectMatches pf t := by
  cases pf <;> simp [matchesProject, specProjectMatches, Option.isNone_iff_eq_none]

theorem matchesSearch_iff (search : Str) (t : Todo) :
    matchesSearch search t = true ↔ specSearchMatches search t := by
  unfold matchesSearch specSearchMatches
  by_cases hs : search = []
  · simp [hs]
  · have hs2 : search.isEmpty = false := by
      cases search with
      | nil => exact absurd rfl hs
      | cons a l => rfl
    simp only [hs2, Bool.false_eq_true, if_false]
    cases hp : t.project with
    | none => simp [hs]
    | some p => simp [hs]

/-- C6 (confirmed): the filtered view contains exactly the
(original-index, task) pairs whose task passes the conjunction of the
status filter, the project filter, and the case-insensitive search match;
it is an ordered subsequence of the enumerated collection; and on the
specification's example — A(active, "x"), B(done, "x"), C(active, no
project) with status Active and project "x" — it is exactly [(0, A)]. -/
theorem claim_C6_filter_composition :
    (∀ (s : AppState) (i : Nat) (t : Todo),
      ((i, t) ∈ filtered_todos s ↔
        s.todos.get? i = some t ∧ specStatusMatches s.filter t ∧
          specProjectMatches s.project_filter t ∧ specSearchMatches s.search t)) ∧
    (∀ s : AppState, List.Sublist (filtered_todos s) (enumFromIdx 0 s.todos)) ∧
    filtered_todos { baseState with
        todos := [Todo.mk (chars "A") false (some (chars "x")),
                  Todo.mk (chars "B") true (some (chars "x")),
                  Todo.mk (chars "C") false none],
        filter := Filter.Active,
        project_filter := ProjectFilter.Project (chars "x") } =
      [(0, Todo.mk (chars "A") false (some (chars "x")))] := by
  refine ⟨?_, ?_, by decide⟩
  · intro s i t
    unfold filtered_todos
    rw [List.mem_filter, mem_enumFromIdx]
    constructor
    · rintro ⟨⟨k, hk, hget⟩, hq⟩
      simp only [Bool.and_eq_true] at hq
      exact ⟨by rw [show i = k by omega]; exact hget,
        (matchesFilter_iff _ _).mp hq.1.1,
        (matchesProject_iff _ _).mp hq.1.2,
        (matchesSearch_iff _ _).mp hq.2⟩
    · rintro ⟨hget, h1, h2, h3⟩
      refine ⟨⟨i, by omega, hget⟩, ?_⟩
      simp only [Bool.and_eq_true]
      exact ⟨⟨(matchesFilter_iff _ _).mpr h1, (matchesProject_iff _ _).mpr h2⟩,
        (matchesSearch_iff _ _).mpr h3⟩
  · intro s
    exact List.filter_sublist _

/-- Witness for C6: membership of (0, A) in the example view, via the
characterization. -/
theorem claim_C6_filter_composition_witness :
    (0, Todo.mk (chars "A") false (some (chars "x"))) ∈ filtered_todos
      { baseState with
        todos := [Todo.mk (chars "A") false (some (chars "x")),
                  Todo.mk (chars "B") true (some (chars "x")),
                  Todo.mk (chars "C") false none],
        filter := Filter.Active,
        project_filter := ProjectFilter.Project (chars "x") } :=
  (claim_C6_filter_composition.1 _ 0 _).mpr
    ⟨rfl, rfl, rfl, Or.inl rfl⟩

/-! ### Claim C7: committing the edit buffer -/

theorem saveEdit_empty (s : AppState) (idx : Nat) (he : s.editing = some idx)
    (ht : trim s.edit_text = []) :
    handle_key_action s KeyAction.SaveEdit =
      { s with editing := none, edit_text := [] } := by
  simp [handle_key_action, he, ht]

theorem saveEdit_modify (s : AppState) (idx : Nat) (he : s.editing = some idx)
    (ht : ¬ trim s.edit_text = []) (hidx : idx < s.todos.length) :
    handle_key_action s KeyAction.SaveEdit =
      { s with
          todos := modifyIdx (fun u => { u with
            text := (parse_todo_text (trim s.edit_text)).1,
            project := (parse_todo_text (trim s.edit_text)).2 }) idx s.todos,
          storage := save_todos (modifyIdx (fun u => { u with
            text := (parse_todo_text (trim s.edit_text)).1,
            project := (parse_todo_text (trim s.edit_text)).2 }) idx s.todos),
          editing := none, edit_text := [] } := by
  simp [handle_key_action, he, ht, hidx]

theorem saveEdit_append (s : AppState) (idx : Nat) (he : s.editing = some idx)
    (ht : ¬ trim s.edit_text = []) (hidx : ¬ idx < s.todos.length) :
    handle_key_action s KeyAction.SaveEdit =
      { s with
          todos := s.todos ++ [Todo.mk (parse_todo_text (trim s.edit_text)).1 false
            (parse_todo_text (trim s.edit_text)).2],
          storage := save_todos (s.todos ++
            [Todo.mk (parse_todo_text (trim s.edit_text)).1 false
              (parse_todo_text (trim s.edit_text)).2]),
          editing := none, edit_text := [] } := by
  simp [handle_key_action, he, ht, hidx]

/-- C7 (confirmed): with the edit buffer referencing index `idx`, a commit
whose buffer trims to nothing changes neither the collection nor the stored
file and just closes the buffer; otherwise the trimmed buffer is split into
(text, project) and either overwrites task `idx` in place (same length, all
other tasks untouched, `done` preserved) when `idx` is in bounds, or
appends a new pending task when `idx` equals the collection length — and in
both non-empty cases the new collection is saved. -/
theorem claim_C7_commit_edit (s : AppState) (idx : Nat) (he : s.editing = some idx) :
    (trim s.edit_text = [] →
      (handle_key_action s KeyAction.SaveEdit).todos = s.todos ∧
      (handle_key_action s KeyAction.SaveEdit).storage = s.storage ∧
      (handle_key_action s KeyAction.SaveEdit).editing = none) ∧
    (trim s.edit_text ≠ [] → idx < s.todos.length →
      (handle_key_action s KeyAction.SaveEdit).todos.length = s.todos.length ∧
      (∃ old, s.todos.get? idx = some old ∧
        (handle_key_action s KeyAction.SaveEdit).todos.get? idx =
          some { old with text := (parse_todo_text (trim s.edit_text)).1,
                          project := (parse_todo_text (trim s.edit_text)).2 }) ∧
      (∀ j, j ≠ idx →
        (handle_key_action s KeyAction.SaveEdit).todos.get? j = s.todos.get? j) ∧
      (handle_key_action s KeyAction.SaveEdit).storage =
        save_todos (handle_key_action s KeyAction.SaveEdit).todos ∧
      (handle_key_action s KeyAction.SaveEdit).editing = none) ∧
    (trim s.edit_text ≠ [] → idx = s.todos.length →
      (handle_key_action s KeyAction.SaveEdit).todos =
        s.todos ++ [Todo.mk (parse_todo_text (trim s.edit_text)).1 false
          (parse_todo_text (trim s.edit_text)).2] ∧
      (handle_key_action s KeyAction.SaveEdit).storage =
        save_todos (handle_key_action s KeyAction.SaveEdit).todos ∧
      (handle_key_action s KeyAction.SaveEdit).editing = none) := by
  refine ⟨?_, ?_, ?_⟩
  · intro ht
    rw [saveEdit_empty s idx he ht]
    exact ⟨rfl, rfl, rfl⟩
  · intro ht hidx
    rw [saveEdit_modify s idx he ht hidx]
    obtain ⟨old, hold⟩ := get?_lt_isSome s.todos idx hidx
    refine ⟨modifyIdx_length _ idx s.todos, ⟨old, hold, ?_⟩, ?_, rfl, rfl⟩
    · have h2 := modifyIdx_get?_self (fun u => { u with
        text := (parse_todo_text (trim s.edit_text)).1,
        project := (parse_todo_text (trim s.edit_text)).2 }) idx s.todos
      rw [hold] at h2
      simpa using h2
    · intro j hj
      exact modifyIdx_get?_ne _ idx j s.todos hj
  · intro ht hidx
    rw [saveEdit_append s idx he ht (by omega)]
    exact ⟨rfl, rfl, rfl⟩

/-- Witness for C7: committing "work: fix bug" from an empty collection
appends the pending task ("fix bug", project "work"). -/
theorem claim_C7_commit_edit_witness :
    (handle_key_action
        { baseState with editing := some 0, edit_text := chars "work: fix bug" }
        KeyAction.SaveEdit).todos =
      [Todo.mk (chars "fix bug") false (some (chars "work"))] := by
  have h := (claim_C7_commit_edit
      { baseState with editing := some 0, edit_text := chars "work: fix bug" } 0 rfl).2.2
      (by decide) (by decide)
  rw [h.1]
  decide

/-! ### Claim C2: two-phase delete -/

theorem deleteKey_unarmed (s : AppState) (h : s.delete_mode = false) :
    handle_key_action s KeyAction.DeleteKey = { s with delete_mode := true } := by
  simp [handle_key_action, h]

theorem deleteKey_armed_some (s : AppState) (h : s.delete_mode = true)
    (ri : Nat) (t : Todo)
    (hget : (filtered_todos s).get? s.selected = some (ri, t)) :
    handle_key_action s KeyAction.DeleteKey =
      { s with todos := s.todos.eraseIdx ri,
               selected :=
                 if s.selected ≥ (filtered_todos s).length - 1 ∧ s.selected > 0
                 then s.selected - 1 else s.selected,
               storage := save_todos (s.todos.eraseIdx ri),
               delete_mode := false } := by
  have hget2 : (filtered_todos s)[s.selected]? = some (ri, t) := by
    rw [← List.get?_eq_getElem?]
    exact hget
  simp [handle_key_action, h, hget2]

theorem deleteKey_armed_none (s : AppState) (h : s.delete_mode = true)
    (hget : (filtered_todos s).get? s.selected = none) :
    handle_key_action s KeyAction.DeleteKey = { s with delete_mode := false } := by
  have hget2 : (filtered_todos s)[s.selected]? = none := by
    rw [← List.get?_eq_getElem?]
    exact hget
  simp [handle_key_action, h, hget2]

/-- C2 as stated is false for its third part: the pending-delete flag is
only cleared by the ClearDelete action (unmapped keys, 's', or non-Ctrl
+/−/0), not by every non-delete action. Here delete, MoveDown, delete on a
two-task collection still removes a task. -/
theorem claim_C2_counterexample :
    (handle_key_action (handle_key_action (handle_key_action
        { baseState with
            todos := [Todo.mk (chars "a") false none, Todo.mk (chars "b") false none] }
        KeyAction.DeleteKey) KeyAction.MoveDown) KeyAction.DeleteKey).todos ≠
      [Todo.mk (chars "a") false none, Todo.mk (chars "b") false none] := by decide

/-- C2 (amended): from a disarmed state a single delete removes nothing and
only arms the flag; a second delete on a valid selection removes exactly
one task (the selected one) and disarms; and a delete followed by the
ClearDelete action and another delete removes nothing. Mapped non-delete
actions such as selection movement do not disarm the flag. -/
theorem claim_C2_delete_two_phase (s : AppState) (h : s.delete_mode = false) :
    (handle_key_action s KeyAction.DeleteKey).todos = s.todos ∧
    (handle_key_action s KeyAction.DeleteKey).storage = s.storage ∧
    (handle_key_action s KeyAction.DeleteKey).delete_mode = true ∧
    (s.selected < (filtered_todos s).length →
      ∃ ri t, (filtered_todos s).get? s.selected = some (ri, t) ∧
        (handle_key_action (handle_key_action s KeyAction.DeleteKey)
            KeyAction.DeleteKey).todos = s.todos.eraseIdx ri ∧
        (handle_key_action (handle_key_action s KeyAction.DeleteKey)
            KeyAction.DeleteKey).todos.length + 1 = s.todos.length ∧
        (handle_key_action (handle_key_action s KeyAction.DeleteKey)
            KeyAction.DeleteKey).delete_mode = false) ∧
    (handle_key_action (handle_key_action (handle_key_action s KeyAction.DeleteKey)
        KeyAction.ClearDelete) KeyAction.DeleteKey).todos = s.todos := by
  have h1 := deleteKey_unarmed s h
  refine ⟨by rw [h1], by rw [h1], by rw [h1], ?_, ?_⟩
  · intro hsel
    obtain ⟨⟨ri, t⟩, hget⟩ := get?_lt_isSome (filtered_todos s) s.selected hsel
    have hget1 : (filtered_todos { s with delete_mode := true }).get?
        ({ s with delete_mode := true } : AppState).selected = some (ri, t) := hget
    have h2 := deleteKey_armed_some { s with delete_mode := true } rfl ri t hget1
    have hri : ri < s.todos.length := by
      have hs := filtered_todos_sound s s.selected ri t hget
      exact get?_some_lt s.todos ri t hs.1
    refine ⟨ri, t, hget, ?_, ?_, ?_⟩
    · rw [h1, h2]
    · rw [h1, h2]
      show (s.todos.eraseIdx ri).length + 1 = s.todos.length
      rw [List.length_eraseIdx]
      simp [hri]
      omega
    · rw [h1, h2]
  · have h2 : handle_key_action (handle_key_action s KeyAction.DeleteKey)
        KeyAction.ClearDelete = { s with delete_mode := false } := by
      rw [h1]
      rfl
    rw [h2, deleteKey_unarmed { s with delete_mode := false } rfl]

/-- Witness for C2: the two-phase behaviour on a concrete two-task state. -/
theorem claim_C2_delete_two_phase_witness :
    (handle_key_action
        { baseState with
            todos := [Todo.mk (chars "a") false none, Todo.mk (chars "b") false none] }
        KeyAction.DeleteKey).todos =
      [Todo.mk (chars "a") false none, Todo.mk (chars "b") false none] ∧
    (∃ ri t,
      (filtered_todos
        { baseState with
            todos := [Todo.mk (chars "a") false none, Todo.mk (chars "b") false none] }).get? 0 =
        some (ri, t) ∧
      (handle_key_action (handle_key_action
          { baseState with
              todos := [Todo.mk (chars "a") false none, Todo.mk (chars "b") false none] }
          KeyAction.DeleteKey) KeyAction.DeleteKey).todos =
        [Todo.mk (chars "a") false none, Todo.mk (chars "b") false none].eraseIdx ri ∧
      (handle_key_action (handle_key_action
          { baseState with
              todos := [Todo.mk (chars "a") false none, Todo.mk (chars "b") false none] }
          KeyAction.DeleteKey) KeyAction.DeleteKey).todos.length + 1 = 2 ∧
      (handle_key_action (handle_key_action
          { baseState with
              todos := [Todo.mk (chars "a") false none, Todo.mk (chars "b") false none] }
          KeyAction.DeleteKey) KeyAction.DeleteKey).delete_mode = false) := by
  have h := claim_C2_delete_two_phase
    { baseState with
        todos := [Todo.mk (chars "a") false none, Todo.mk (chars "b") false none] } rfl
  exact ⟨h.1, h.2.2.2.1 (by decide)⟩

/-! ### Claim C9: selection movement -/

theorem selectionOk_of_zero (s : AppState) (h : s.selected = 0) : selectionOk s := by
  cases hf : filtered_todos s with
  | nil => exact Or.inr ⟨hf, h⟩
  | cons a l =>
    left
    rw [h, hf]
    simp

theorem update_selected_eta (s : AppState) (k : Nat) (h : s.selected = k) :
    ({ s with selected := k } : AppState) = s := by
  cases s
  simp_all

/-- C9 as stated is false: on an empty filtered view with a (stale)
selection of 3, MoveUp changes the selection to 2 — not a no-op, and still
out of the empty view's required index 0. -/
theorem claim_C9_counterexample :
    filtered_todos { baseState with selected := 3 } = [] ∧
    (handle_key_action { baseState with selected := 3 } KeyAction.MoveUp).selected = 2 := by
  decide

/-- C9 (amended): provided the selection invariant already holds (selection
in [0, filtered_len-1], or 0 when the view is empty), each movement
operation preserves it, and on an empty filtered view every movement
operation leaves the state unchanged. -/
theorem claim_C9_movement (s : AppState) (h : selectionOk s) :
    selectionOk (handle_key_action s KeyAction.MoveDown) ∧
    selectionOk (handle_key_action s KeyAction.MoveUp) ∧
    selectionOk (handle_key_action s KeyAction.GoToBottom) ∧
    selectionOk (handle_key_action s KeyAction.GoToTop) ∧
    (filtered_todos s = [] →
      handle_key_action s KeyAction.MoveDown = s ∧
      handle_key_action s KeyAction.MoveUp = s ∧
      handle_key_action s KeyAction.GoToBottom = s ∧
      handle_key_action s KeyAction.GoToTop = s) := by
  refine ⟨?_, ?_, ?_, ?_, ?_⟩
  · show selectionOk (if (filtered_todos s).isEmpty then s
      else { s with selected := min (s.selected + 1) ((filtered_todos s).length - 1) })
    by_cases hf : (filtered_todos s).isEmpty
    · rw [if_pos hf]
      exact h
    · rw [if_neg hf]
      left
      show min (s.selected + 1) ((filtered_todos s).length - 1) < (filtered_todos s).length
      have hlen : (filtered_todos s).length ≠ 0 := by
        intro h0
        exact hf (List.isEmpty_iff_length_eq_zero.mpr h0)
      omega
  · show selectionOk (if s.selected > 0 then { s with selected := s.selected - 1 } else s)
    by_cases hs : s.selected > 0
    · rw [if_pos hs]
      rcases h with h | ⟨hf, h0⟩
      · left
        show s.selected - 1 < (filtered_todos s).length
        omega
      · omega
    · rw [if_neg hs]
      exact h
  · show selectionOk (if (filtered_todos s).isEmpty then s
      else { s with selected := (filtered_todos s).length - 1 })
    by_cases hf : (filtered_todos s).isEmpty
    · rw [if_pos hf]
      exact h
    · rw [if_neg hf]
      left
      show (filtered_todos s).length - 1 < (filtered_todos s).length
      have hlen : (filtered_todos s).length ≠ 0 := by
        intro h0
        exact hf (List.isEmpty_iff_length_eq_zero.mpr h0)
      omega
  · exact selectionOk_of_zero _ rfl
  · intro hf
    have hsel : s.selected = 0 := by
      rcases h with h | ⟨_, h0⟩
      · rw [hf] at h
        simp at h
      · exact h0
    have hie : (filtered_todos s).isEmpty = true := by
      rw [hf]
      rfl
    refine ⟨?_, ?_, ?_, ?_⟩
    · show (if (filtered_todos s).isEmpty then s
        else { s with selected := min (s.selected + 1) ((filtered_todos s).length - 1) }) = s
      rw [if_pos hie]
    · show (if s.selected > 0 then { s with selected := s.selected - 1 } else s) = s
      rw [if_neg (by omega)]
    · show (if (filtered_todos s).isEmpty then s
        else { s with selected := (filtered_todos s).length - 1 }) = s
      rw [if_pos hie]
    · exact update_selected_eta s 0 hsel

/-- Witness for C9: the invariant is preserved from a populated state with
the last item selected. -/
theorem claim_C9_movement_witness :
    selectionOk (handle_key_action
      { baseState with todos := [Todo.mk (chars "a") false none], selected := 0 }
      KeyAction.MoveDown) :=
  (claim_C9_movement
    { baseState with todos := [Todo.mk (chars "a") false none], selected := 0 }
    (Or.inl (by decide))).1

/-! ### Claim C3: selection stays in bounds when the view shrinks -/

/-- C3 as stated is false: toggling the selected task under the Active
status filter shrinks the filtered view but does not re-clamp the
selection. With two active tasks, the second selected, toggling leaves
selection = 1 while the filtered view has length 1 — neither within
[0, filtered_len-1] nor the empty-view 0. -/
theorem claim_C3_counterexample :
    ¬ ((handle_key_action
          { baseState with
              todos := [Todo.mk (chars "a") false none, Todo.mk (chars "b") false none],
              filter := Filter.Active, selected := 1 }
          KeyAction.ToggleSelected).selected <
        (filtered_todos (handle_key_action
          { baseState with
              todos := [Todo.mk (chars "a") false none, Todo.mk (chars "b") false none],
              filter := Filter.Active, selected := 1 }
          KeyAction.ToggleSelected)).length ∨
       (filtered_todos (handle_key_action
          { baseState with
              todos := [Todo.mk (chars "a") false none, Todo.mk (chars "b") false none],
              filter := Filter.Active, selected := 1 }
          KeyAction.ToggleSelected) = [] ∧
        (handle_key_action
          { baseState with
              todos := [Todo.mk (chars "a") false none, Todo.mk (chars "b") false none],
              filter := Filter.Active, selected := 1 }
          KeyAction.ToggleSelected).selected = 0)) := by decide

/-- C3 (amended): the operations that reset the selection (cycling the
status or project filter, clearing the search, clearing all filters, and —
given the invariant — toggling the search bar) leave the selection within
[0, filtered_len-1] (or 0 on an empty view), and a confirmed delete from a
state satisfying the invariant preserves it; but toggling a task's done
flag under a status filter (and editing the search text) does not re-clamp
the selection, as the counterexample shows. -/
theorem claim_C3_selection_clamping (s : AppState) :
    selectionOk (handle_key_action s KeyAction.CycleFilter) ∧
    selectionOk (handle_key_action s KeyAction.CycleProject) ∧
    selectionOk (handle_key_action s KeyAction.ClearSearch) ∧
    selectionOk (handle_key_action s KeyAction.ClearAllFilters) ∧
    (selectionOk s → selectionOk (handle_key_action s KeyAction.ToggleSearch)) ∧
    (s.delete_mode = true → selectionOk s →
      selectionOk (handle_key_action s KeyAction.DeleteKey)) := by
  refine ⟨selectionOk_of_zero _ rfl, selectionOk_of_zero _ rfl,
    selectionOk_of_zero _ rfl, selectionOk_of_zero _ rfl, ?_, ?_⟩
  · intro hOk
    cases hss : s.show_search
    · simp only [handle_key_action, hss, Bool.not_false, if_true]
      exact hOk
    · simp only [handle_key_action, hss, Bool.not_true, Bool.false_eq_true, if_false]
      exact selectionOk_of_zero _ rfl
  · intro hdm hOk
    cases hget : (filtered_todos s).get? s.selected with
    | none =>
      rw [deleteKey_armed_none s hdm hget]
      exact hOk
    | some pair =>
      obtain ⟨ri, t⟩ := pair
      have hsel : s.selected < (filtered_todos s).length :=
        get?_some_lt _ _ _ hget
      have hsound := filtered_todos_sound s s.selected ri t hget
      have hri : ri < s.todos.length := get?_some_lt _ _ _ hsound.1
      rw [deleteKey_armed_some s hdm ri t hget]
      have hlen : (filtered_todos { s with
          todos := s.todos.eraseIdx ri,
          selected :=
            if s.selected ≥ (filtered_todos s).length - 1 ∧ s.selected > 0
            then s.selected - 1 else s.selected,
          storage := save_todos (s.todos.eraseIdx ri),
          delete_mode := false }).length + 1 = (filtered_todos s).length := by
        have e1 : (filtered_todos { s with
            todos := s.todos.eraseIdx ri,
            selected :=
              if s.selected ≥ (filtered_todos s).length - 1 ∧ s.selected > 0
              then s.selected - 1 else s.selected,
            storage := save_todos (s.todos.eraseIdx ri),
            delete_mode := false }).length =
            (s.todos.eraseIdx ri).countP (fun u =>
              matchesFilter s.filter u && matchesProject s.project_filter u &&
                matchesSearch s.search u) := filtered_todos_length _
        have e2 := countP_eraseIdx_of_get (fun u =>
            matchesFilter s.filter u && matchesProject s.project_filter u &&
              matchesSearch s.search u) s.todos ri t hsound.1 hsound.2
        have e3 := filtered_todos_length s
        rw [e1, e2, e3]
      by_cases hc : s.selected ≥ (filtered_todos s).length - 1 ∧ s.selected > 0
      · simp only [if_pos hc]
        simp only [if_pos hc] at hlen
        left
        show s.selected - 1 < _
        omega
      · simp only [if_neg hc]
        simp only [if_neg hc] at hlen
        rcases Nat.eq_zero_or_pos s.selected with h0 | hpos
        · exact selectionOk_of_zero _ h0
        · left
          show s.selected < _
          have hlt : s.selected < (filtered_todos s).length - 1 := by
            rcases not_and_or.mp hc with hge | hpos2
            · omega
            · omega
          omega

/-- Witness for C3: cycling the filter and a confirmed delete on a concrete
one-task state keep the invariant. -/
theorem claim_C3_selection_clamping_witness :
    selectionOk (handle_key_action
      { baseState with todos := [Todo.mk (chars "a") false none], delete_mode := true }
      KeyAction.CycleFilter) ∧
    selectionOk (handle_key_action
      { baseState with todos := [Todo.mk (chars "a") false none], delete_mode := true }
      KeyAction.DeleteKey) := by
  have h := claim_C3_selection_clamping
    { baseState with todos := [Todo.mk (chars "a") false none], delete_mode := true }
  exact ⟨h.1, h.2.2.2.2.2 rfl (Or.inl (by decide))⟩

/-! ### Claim C8: theme resolution -/

theorem applyColorField_errs (th : Theme) (o : Option Str) (set : Theme → Color → Theme)
    (h : ∀ x, o = some x → parse_hex_color x = HexResult.err) :
    applyColorField th o set = some th := by
  cases ho : o with
  | none => rfl
  | some x => simp [applyColorField, h x ho]

theorem apply_primary_errs (th : Theme) (p : AlacrittyPrimary)
    (hb : ∀ x, p.background = some x → parse_hex_color x = HexResult.err)
    (hf : ∀ x, p.foreground = some x → parse_hex_color x = HexResult.err) :
    apply_primary th p = some th := by
  have Hb : ∀ (a : Theme) (st : Theme → Color → Theme),
      applyColorField a p.background st = some a :=
    fun a st => applyColorField_errs a p.background st hb
  have Hf : ∀ (a : Theme) (st : Theme → Color → Theme),
      applyColorField a p.foreground st = some a :=
    fun a st => applyColorField_errs a p.foreground st hf
  unfold apply_primary
  simp only [Hb, Option.some_bind, Hf]

theorem applyNormalCyan_errs (th : Theme) (n : AlacrittyNormal)
    (hcyan : ∀ x, n.cyan = some x → parse_hex_color x = HexResult.err)
    (hblack : ∀ x, n.black = some x → parse_hex_color x = HexResult.err) :
    applyNormalCyan th n = some th := by
  unfold applyNormalCyan
  cases hc : n.cyan with
  | none => exact applyColorField_errs th n.black _ hblack
  | some x => simp [hcyan x hc]

theorem apply_normal_errs (th : Theme) (n : AlacrittyNormal)
    (hblack : ∀ x, n.black = some x → parse_hex_color x = HexResult.err)
    (hred : ∀ x, n.red = some x → parse_hex_color x = HexResult.err)
    (hgreen : ∀ x, n.green = some x → parse_hex_color x = HexResult.err)
    (hyellow : ∀ x, n.yellow = some x → parse_hex_color x = HexResult.err)
    (hblue : ∀ x, n.blue = some x → parse_hex_color x = HexResult.err)
    (hmagenta : ∀ x, n.magenta = some x → parse_hex_color x = HexResult.err)
    (hcyan : ∀ x, n.cyan = some x → parse_hex_color x = HexResult.err)
    (hwhite : ∀ x, n.white = some x → parse_hex_color x = HexResult.err) :
    apply_normal th n = some th := by
  have Hblue : ∀ (a : Theme) (st : Theme → Color → Theme),
      applyColorField a n.blue st = some a :=
    fun a st => applyColorField_errs a n.blue st hblue
  have Hwhite' : ∀ (a : Theme) (st : Theme → Color → Theme),
      applyColorField a n.white st = some a :=
    fun a st => applyColorField_errs a n.white st hwhite
  have Hcyan : ∀ a : Theme, applyNormalCyan a n = some a :=
    fun a => applyNormalCyan_errs a n hcyan hblack
  have Hred : ∀ (a : Theme) (st : Theme → Color → Theme),
      applyColorField a n.red st = some a :=
    fun a st => applyColorField_errs a n.red st hred
  have Hgreen : ∀ (a : Theme) (st : Theme → Color → Theme),
      applyColorField a n.green st = some a :=
    fun a st => applyColorField_errs a n.green st hgreen
  have Hyellow : ∀ (a : Theme) (st : Theme → Color → Theme),
      applyColorField a n.yellow st = some a :=
    fun a st => applyColorField_errs a n.yellow st hyellow
  have Hmagenta : ∀ (a : Theme) (st : Theme → Color → Theme),
      applyColorField a n.magenta st = some a :=
    fun a st => applyColorField_errs a n.magenta st hmagenta
  unfold apply_normal
  simp only [Hblue, Option.some_bind, Hwhite', Hcyan, Hred, Hgreen, Hyellow, Hmagenta]

theorem apply_config_errs (th : Theme) (cfg : AlacrittyConfig)
    (hfont : cfg.font = none)
    (hprim : ∀ colors p, cfg.colors = some colors → colors.primary = some p →
      (∀ x, p.background = some x → parse_hex_color x = HexResult.err) ∧
      (∀ x, p.foreground = some x → parse_hex_color x = HexResult.err))
    (hnorm : ∀ colors nn, cfg.colors = some colors → colors.normal = some nn →
      (∀ x, nn.black = some x → parse_hex_color x = HexResult.err) ∧
      (∀ x, nn.red = some x → parse_hex_color x = HexResult.err) ∧
      (∀ x, nn.green = some x → parse_hex_color x = HexResult.err) ∧
      (∀ x, nn.yellow = some x → parse_hex_color x = HexResult.err) ∧
      (∀ x, nn.blue = some x → parse_hex_color x = HexResult.err) ∧
      (∀ x, nn.magenta = some x → parse_hex_color x = HexResult.err) ∧
      (∀ x, nn.cyan = some x → parse_hex_color x = HexResult.err) ∧
      (∀ x, nn.white = some x → parse_hex_color x = HexResult.err)) :
    apply_config th cfg = some th := by
  unfold apply_config
  cases hcol : cfg.colors with
  | none => simp [hfont]
  | some colors =>
    cases hp : colors.primary with
    | none =>
      cases hn : colors.normal with
      | none => simp [hp, hn, hfont]
      | some nn =>
        obtain ⟨h1, h2, h3, h4, h5, h6, h7, h8⟩ := hnorm colors nn hcol hn
        simp [hp, hn, apply_normal_errs th nn h1 h2 h3 h4 h5 h6 h7 h8, hfont]
    | some p =>
      obtain ⟨hb, hf⟩ := hprim colors p hcol hp
      cases hn : colors.normal with
      | none => simp [hp, hn, apply_primary_errs th p hb hf, hfont]
      | some nn =>
        obtain ⟨h1, h2, h3, h4, h5, h6, h7, h8⟩ := hnorm colors nn hcol hn
        simp [hp, hn, apply_primary_errs th p hb hf,
          apply_normal_errs th nn h1 h2 h3 h4 h5 h6 h7 h8, hfont]

/-- C8: the reset and override parts of the claim hold — no configured
path, or an unreadable or unparseable file, yields exactly the built-in
default theme; a file specifying only `primary.background` with a valid
six-hex-digit color yields the default theme with only the background
replaced; and a present color string that parses to `Err` is skipped with
the field's previous value retained. But the claim's "any field whose
color string fails to parse retains its previous value" is wrong about the
code: the six-BYTE string "1α123" passes the length check, and then the
byte slice `&hex[0..2]` cuts through the middle of the two-byte 'α', so
`parse_hex_color` panics and theme resolution aborts the whole program
(result `none`) instead of retaining the field — the code, not the claim,
is at fault, since the source's own design swallows every color error. -/
theorem claim_C8_theme (fs : Str → Option AlacrittyConfig) (fuel : Nat) (path : Str) :
    load_theme fs fuel none = some Theme.default ∧
    (fs path = none → load_theme fs fuel (some path) = some Theme.default) ∧
    (∀ (bg : Str) (c : Color),
      fs path = some (AlacrittyConfig.mk
        (some (AlacrittyColors.mk (some (AlacrittyPrimary.mk (some bg) none)) none))
        none none) →
      parse_hex_color bg = HexResult.ok c →
      load_theme fs (fuel + 1) (some path) =
        some { Theme.default with background := c }) ∧
    (∀ (th : Theme) (cfg : AlacrittyConfig), cfg.font = none →
      (∀ colors p, cfg.colors = some colors → colors.primary = some p →
        (∀ x, p.background = some x → parse_hex_color x = HexResult.err) ∧
        (∀ x, p.foreground = some x → parse_hex_color x = HexResult.err)) →
      (∀ colors nn, cfg.colors = some colors → colors.normal = some nn →
        (∀ x, nn.black = some x → parse_hex_color x = HexResult.err) ∧
        (∀ x, nn.red = some x → parse_hex_color x = HexResult.err) ∧
        (∀ x, nn.green = some x → parse_hex_color x = HexResult.err) ∧
        (∀ x, nn.yellow = some x → parse_hex_color x = HexResult.err) ∧
        (∀ x, nn.blue = some x → parse_hex_color x = HexResult.err) ∧
        (∀ x, nn.magenta = some x → parse_hex_color x = HexResult.err) ∧
        (∀ x, nn.cyan = some x → parse_hex_color x = HexResult.err) ∧
        (∀ x, nn.white = some x → parse_hex_color x = HexResult.err)) →
      apply_config th cfg = some th) ∧
    (utf8Length (chars "1α123") = 6 ∧
     parse_hex_color (chars "1α123") = HexResult.panic ∧
     apply_config Theme.default (AlacrittyConfig.mk
        (some (AlacrittyColors.mk none
          (some (AlacrittyNormal.mk none (some (chars "1α123"))
            none none none none none none))))
        none none) = none ∧
     load_theme
       (fun p => if p = chars "alacritty.toml" then
           some (AlacrittyConfig.mk
             (some (AlacrittyColors.mk none
               (some (AlacrittyNormal.mk none (some (chars "1α123"))
                 none none none none none none))))
             none none)
         else none)
       1 (some (chars "alacritty.toml")) = none) := by
  refine ⟨rfl, ?_, ?_, ?_, by decide⟩
  · intro h
    cases fuel with
    | zero => rfl
    | succ n => simp [load_theme, load_theme_from_file, h]
  · intro bg c hfs hparse
    simp only [load_theme, load_theme_from_file, hfs]
    simp [apply_config, apply_primary, applyColorField, hparse]
  · intro th cfg hfont hprim hnorm
    exact apply_config_errs th cfg hfont hprim hnorm

/-- Witness for C8: the background-only override applied at a concrete
one-file configuration. -/
theorem claim_C8_theme_witness :
    load_theme
      (fun p => if p = chars "alacritty.toml" then
          some (AlacrittyConfig.mk
            (some (AlacrittyColors.mk
              (some (AlacrittyPrimary.mk (some (chars "#1a2b3c")) none)) none))
            none none)
        else none)
      1 (some (chars "alacritty.toml")) =
      some { Theme.default with background := Color.mk 26 43 60 } :=
  (claim_C8_theme _ 0 (chars "alacritty.toml")).2.2.1 (chars "#1a2b3c")
    (Color.mk 26 43 60) (by simp) (by decide)

end Omado
